import Mathlib

/-!
Verification of the CGI streaming adapter in `gitHttpBackend.py`.

Byte strings (Python 2 `str`) are modelled as `List Nat` (one `Nat` per
byte).  Python string/list primitives used by the source (slicing with
negative indices, `str.find`, `str.split`, `str.strip`, `dict`) are given
faithful executable models, and each source function is translated
definition-by-definition:

* `_search_str_for_header_end` / `_find_header_end_in_2_chunks` -> `listFindIdx` / `findHeaderEndIn2Chunks`
* the scan loop of `_communicate_with_git`                      -> `scanGo` / `scanChunks`
* `_separate_header`                                            -> `separateHeader`
* `_response_body_generator`                                    -> `bodyGen`
* `_input_data_pump`                                            -> `pumpGo` / `pump`
* `parse_cgi_header`                                            -> `parseCgiHeader`
* `int(cgi_environ.get('CONTENT_LENGTH', '') or 0)`             -> `contentLengthOf`

Stateful reads from the subprocess pipe are modelled by an explicit list of
the byte chunks successive `read` calls return (an exhausted list, or an
empty element, models a zero-length read / closed stream).
-/

/-- Byte strings: one `Nat` per byte. -/
abbrev ByteStr := List Nat

/-- Bytes of a literal, for readable statements (ASCII/UTF code points). -/
def bytes (s : String) : ByteStr := s.toList.map Char.toNat

/-- `DEFAULT_CHUNK_SIZE = 0x8000` from the source. -/
def defaultChunkSize : Nat := 0x8000

/-- `DEFAULT_MAX_HEADER_SIZE = 0x20000` from the source. -/
def defaultMaxHeaderSize : Nat := 0x20000

/-- `CRLF = b'\r\n'` from the source. -/
def crlf : ByteStr := [13, 10]

/-- `HEADER_END = CRLF * 2` from the source. -/
def headerEnd : ByteStr := crlf ++ crlf

/-- Python `s[-3:]`: the last (at most) three bytes. -/
def pyLast3 (s : ByteStr) : ByteStr := s.drop (s.length - 3)

/-- Python `s[:3]`: the first (at most) three bytes. -/
def pyFirst3 (s : ByteStr) : ByteStr := s.take 3

/-- Python `s[:i]` for a possibly negative `i` (negative counts from the end,
clamped at zero). -/
def pyTakeI (s : ByteStr) (i : Int) : ByteStr :=
  if i < 0 then s.take (s.length - i.natAbs) else s.take i.toNat

/-- Python `s[i:]` for a possibly negative `i` (negative counts from the end,
clamped at zero). -/
def pyDropI (s : ByteStr) (i : Int) : ByteStr :=
  if i < 0 then s.drop (s.length - i.natAbs) else s.drop i.toNat

/-- First index at which `pat` occurs as a contiguous sublist of `s`
(`None` if it does not occur).  `s.find(pat)` in the source returns this
index, or `-1` when this is `none`. -/
def listFindIdx (pat : ByteStr) : ByteStr → Option Nat
  | [] => if pat.isPrefixOf ([] : ByteStr) then some 0 else none
  | c :: rest =>
    if pat.isPrefixOf (c :: rest) then some 0
    else (listFindIdx pat rest).map (· + 1)

/-- `_find_header_end_in_2_chunks(chunk0, chunk1)`: search the window made of
the last three bytes of `chunk0` and the first three bytes of `chunk1`, then
`chunk1` alone.  The straddling index is the Python expression
`len(chunk0) - 3 + header_end`, an `Int` that can be negative when
`chunk0` is shorter than three bytes. -/
def findHeaderEndIn2Chunks (chunk0 chunk1 : ByteStr) : Option (Bool × Int) :=
  match listFindIdx headerEnd (pyLast3 chunk0 ++ pyFirst3 chunk1) with
  | some i => some (true, (chunk0.length : Int) - 3 + i)
  | none =>
    match listFindIdx headerEnd chunk1 with
    | some i => some (false, (i : Int))
    | none => none

/-- Total byte count of a chunk list (`sum(map(len, chunks))` in the source). -/
def sumLens (chunks : List ByteStr) : Nat := (chunks.map List.length).sum

/-- The two failures of the scan loop in `_communicate_with_git`.  Both are
raised as `EnvironmentError(1, msg)` in the source and are distinguished by
their message text: `tooLarge` is the "Read %d bytes ... without finding
header boundary" error, `notFound` the "Did not find header boundary" one. -/
inductive ScanErr where
  | tooLarge
  | notFound
deriving DecidableEq

/-- The scan loop of `_communicate_with_git`.  `chunks` is the accumulated
chunk list (seeded with one empty placeholder), `reads` the chunks that
successive `proc.stdout.read(DEFAULT_CHUNK_SIZE)` calls will return; an
exhausted list, or an empty element, is a zero-length read.  On success,
returns the final chunk list, the boundary location, and the reads that were
not consumed (they belong to the body stream). -/
def scanGo : List ByteStr → List ByteStr → Except ScanErr (List ByteStr × Bool × Int × List ByteStr)
  | chunks, [] =>
    if sumLens chunks > defaultMaxHeaderSize then .error .tooLarge else .error .notFound
  | chunks, r :: rest =>
    if sumLens chunks > defaultMaxHeaderSize then .error .tooLarge
    else if r = [] then .error .notFound
    else
      match findHeaderEndIn2Chunks (chunks.getLastD []) r with
      | some (b, i) => .ok (chunks ++ [r], b, i, rest)
      | none => scanGo (chunks ++ [r]) rest

/-- The scan loop started from `chunks = ['']`. -/
def scanChunks (reads : List ByteStr) : Except ScanErr (List ByteStr × Bool × Int × List ByteStr) :=
  scanGo [[]] reads

/-- `_separate_header(chunks, header_end_on_boundary, index_within_chunk)`. -/
def separateHeader (chunks : List ByteStr) (onBoundary : Bool) (idx : Int) : ByteStr × ByteStr :=
  if onBoundary then
    let headerChunks := chunks.dropLast.dropLast
    let lastHeaderChunk := chunks.dropLast.getLastD []
    let bodyStartIdx : Int := 4 - ((lastHeaderChunk.length : Int) - idx)
    ((headerChunks ++ [pyTakeI lastHeaderChunk idx, crlf]).flatten,
      pyDropI (chunks.getLastD []) bodyStartIdx)
  else
    let headerChunks := chunks.dropLast
    let lastHeaderChunk := chunks.getLastD []
    let bodyStartIdx : Int := idx + 4
    ((headerChunks ++ [pyTakeI lastHeaderChunk idx, crlf]).flatten,
      pyDropI (chunks.getLastD []) bodyStartIdx)

/-- Header extraction of `_communicate_with_git`: run the scan loop, then
`_separate_header`.  Returns `(cgi_header, remainder, unconsumed reads)`. -/
def communicate (reads : List ByteStr) : Except ScanErr (ByteStr × ByteStr × List ByteStr) :=
  match scanChunks reads with
  | .error e => .error e
  | .ok (chunks, b, i, rest) =>
    let hr := separateHeader chunks b i
    .ok (hr.1, hr.2, rest)

/-! ## The response body generator (`_response_body_generator`) -/

/-- The read loop of `_response_body_generator`: yield each stdout read until
a read returns zero bytes (an exhausted list also models a zero-length
read). -/
def bodyReads : List ByteStr → List ByteStr
  | [] => []
  | r :: rest => if r = [] then [] else r :: bodyReads rest

/-- `_response_body_generator(remainder, proc)` as the list of the elements
it yields: the remainder first (unconditionally, even when empty), then each
non-empty stdout read, then one empty placeholder per `proc.poll()` that
returned `None` while waiting for process exit (`polls` many). -/
def bodyGen (remainder : ByteStr) (reads : List ByteStr) (polls : Nat) : List ByteStr :=
  remainder :: (bodyReads reads ++ List.replicate polls [])

/-! ## The input pump (`_input_data_pump`) -/

/-- An input stream, modelled by the value each `input_stream.read(n)` call
returns as a function of the number of bytes consumed so far (`pos`) and the
requested size `n`.  A file-protocol stream returns the same result for the
same position, which makes the `while` loop of `_input_data_pump` a function
of the position alone. -/
def fullRead (s : ByteStr) : Nat → Nat → ByteStr :=
  fun pos n => (s.drop pos).take n

/-- The `while bytes_read < input_length` loop of `_input_data_pump`,
with explicit fuel.  Returns `some ws` when the loop exits (after which the
source closes `proc.stdin`), where `ws` records each iteration as
`(bytes_to_read, current_data)`: the size passed to `input_stream.read` and
the data written to `proc.stdin`.  `none` means the fuel ran out with the
loop still running (`stdin` not closed); a result of `none` for every fuel
is non-termination. -/
def pumpGo (readFn : Nat → Nat → ByteStr) (inputLength : Nat) :
    Nat → Nat → Option (List (Nat × ByteStr))
  | 0, _ => none
  | fuel + 1, pos =>
    if pos < inputLength then
      let n := min defaultChunkSize (inputLength - pos)
      let data := readFn pos n
      match pumpGo readFn inputLength fuel (pos + data.length) with
      | some ws => some ((n, data) :: ws)
      | none => none
    else some []

/-- `_input_data_pump` from `bytes_read = 0`, with fuel `input_length + 1`
(enough for any stream whose reads all return at least one byte). -/
def pump (readFn : Nat → Nat → ByteStr) (inputLength : Nat) : Option (List (Nat × ByteStr)) :=
  pumpGo readFn inputLength (inputLength + 1) 0

/-! ## The header parser (`parse_cgi_header`) -/

/-- Python `str.strip` whitespace set: `\t \n \v \f \r` and space. -/
def isPySpace (c : Nat) : Bool :=
  c = 9 || c = 10 || c = 11 || c = 12 || c = 13 || c = 32

/-- Python `s.strip()`: drop leading and trailing whitespace. -/
def pyStrip (s : ByteStr) : ByteStr :=
  (((s.dropWhile isPySpace).reverse).dropWhile isPySpace).reverse

/-- Split at the first occurrence of `sep`: `some (before, after)`, or `none`
when `sep` does not occur.  `s.split(sep, 1)` in Python returns
`[before, after]` or `[s]` accordingly. -/
def splitFirstSub (sep : ByteStr) : ByteStr → Option (ByteStr × ByteStr)
  | [] => if sep.isPrefixOf ([] : ByteStr) then some ([], []) else none
  | c :: rest =>
    if sep.isPrefixOf (c :: rest) then some ([], (c :: rest).drop sep.length)
    else (splitFirstSub sep rest).map (fun p => (c :: p.1, p.2))

/-- Python `s.split(sep)` for a non-empty `sep`, via fuel (the fuel
`s.length` is enough since every split consumes at least one byte). -/
def pySplitFuel (sep : ByteStr) : Nat → ByteStr → List ByteStr
  | 0, s => [s]
  | fuel + 1, s =>
    match splitFirstSub sep s with
    | none => [s]
    | some (a, b) => a :: pySplitFuel sep fuel b

/-- Python `s.split(sep)` (for the non-empty separators the source uses). -/
def pySplit (sep s : ByteStr) : List ByteStr := pySplitFuel sep s.length s

/-- The bytes of `'Status'`. -/
def statusKey : ByteStr := bytes "Status"

/-- The bytes of the default status line `'200 OK'`. -/
def ok200 : ByteStr := bytes "200 OK"

/-- One line of the parse loop:
`name, padded_value = raw_line.strip().split(':', 1)` followed by
`value = padded_value.strip()`.  `none` models the `ValueError` the unpacking
raises when the stripped line has no colon. -/
def parseLine (l : ByteStr) : Option (ByteStr × ByteStr) :=
  match splitFirstSub [58] (pyStrip l) with
  | none => none
  | some (n, pv) => some (n, pyStrip pv)

/-- `header_dict[name] = value` on an association list: overwrite the entry
in place when the key is present, append otherwise (Python dict update). -/
def dictSet : List (ByteStr × ByteStr) → ByteStr → ByteStr → List (ByteStr × ByteStr)
  | [], k, v => [(k, v)]
  | p :: rest, k, v => if p.1 = k then (k, v) :: rest else p :: dictSet rest k v

/-- `header_dict[name]` / `header_dict.get(name)`. -/
def dictGet (d : List (ByteStr × ByteStr)) (k : ByteStr) : Option ByteStr :=
  (d.find? (fun p => p.1 == k)).map (·.2)

/-- `header_dict.pop(k, None)`: the dictionary without key `k`. -/
def dictPop (d : List (ByteStr × ByteStr)) (k : ByteStr) : List (ByteStr × ByteStr) :=
  d.filter (fun p => !(p.1 == k))

/-- The `for raw_line in raw_lines[:-1]` loop of `parse_cgi_header`,
threading `header_dict` and `names`.  The error is the `ValueError` raised on
a line with no colon. -/
def processLines : List ByteStr → List (ByteStr × ByteStr) → List ByteStr →
    Except Unit (List (ByteStr × ByteStr) × List ByteStr)
  | [], d, ns => .ok (d, ns)
  | l :: ls, d, ns =>
    match parseLine l with
    | none => .error ()
    | some (n, v) =>
      processLines ls (dictSet d n v) (if n = statusKey then ns else ns ++ [n])

/-- `parse_cgi_header(cgi_header)`.  The error covers both the failed
`assert raw_lines[-1] == ''` and the `ValueError` on a colon-less line. -/
def parseCgiHeader (raw : ByteStr) : Except Unit (ByteStr × List (ByteStr × ByteStr)) :=
  let rawLines := pySplit crlf raw
  if rawLines.getLastD [] = [] then
    match processLines rawLines.dropLast [] [] with
    | .error e => .error e
    | .ok (d, ns) =>
      let statusOpt := dictGet d statusKey
      let d2 := dictPop d statusKey
      let st := match statusOpt with
        | some v => if v = [] then ok200 else v
        | none => ok200
      .ok (st, ns.map (fun n => (n, (dictGet d2 n).getD [])))
  else .error ()

/-! ## `CONTENT_LENGTH` handling (`run_git_http_backend`, line 55) -/

/-- `int(t)` for the digit run of a decimal literal. -/
def digitsVal (t : ByteStr) : Option Nat :=
  if t ≠ [] ∧ t.all (fun c => 48 ≤ c && c ≤ 57) then
    some (t.foldl (fun a c => a * 10 + (c - 48)) 0)
  else none

/-- Python `int(s)` on a string: surrounding whitespace, an optional sign,
then one or more decimal digits; `none` models the `ValueError` raised
otherwise. -/
def pyInt (s : ByteStr) : Option Int :=
  match pyStrip s with
  | 43 :: rest => (digitsVal rest).map Int.ofNat
  | 45 :: rest => (digitsVal rest).map (fun n => -(n : Int))
  | t => (digitsVal t).map Int.ofNat

/-- `input_length = int(cgi_environ.get('CONTENT_LENGTH', '') or 0)`:
`cl` is the `CONTENT_LENGTH` entry of the environment (`none` when absent).
An absent or empty value short-circuits through `'' or 0` to `int(0) = 0`;
a non-empty value goes through `int(s)`, whose `ValueError` is the
`.error`. -/
def contentLengthOf (cl : Option ByteStr) : Except Unit Int :=
  match cl with
  | none => .ok 0
  | some s =>
    if s = [] then .ok 0
    else
      match pyInt s with
      | some n => .ok n
      | none => .error ()

/-! ## Declarative views of the parse loop, used to state the claims -/

/-- The per-line parses of a line list (`none` as soon as one line fails). -/
def lineEntries : List ByteStr → Option (List (ByteStr × ByteStr))
  | [] => some []
  | l :: ls =>
    match parseLine l, lineEntries ls with
    | some e, some es => some (e :: es)
    | _, _ => none

/-- The value of the last line that used name `k` (what `header_dict[k]`
holds after the loop). -/
def lastVal (es : List (ByteStr × ByteStr)) (k : ByteStr) : Option ByteStr :=
  (es.reverse.find? (fun p => p.1 == k)).map (·.2)

/-- The non-`Status` names in line order, one per line (`names` after the
loop). -/
def okNames (es : List (ByteStr × ByteStr)) : List ByteStr :=
  (es.filter (fun p => !(p.1 == statusKey))).map (·.1)

/-- The dictionary after the loop: every entry folded into `d`. -/
def dictFold (d : List (ByteStr × ByteStr)) (es : List (ByteStr × ByteStr)) :
    List (ByteStr × ByteStr) :=
  es.foldl (fun d p => dictSet d p.1 p.2) d

/-- The status line computed from the final dictionary
(`header_dict.pop('Status', None) or '200 OK'`). -/
def statusOf (es : List (ByteStr × ByteStr)) : ByteStr :=
  match lastVal es statusKey with
  | some v => if v = [] then ok200 else v
  | none => ok200

/-! ## Basic lemmas -/

/-- Flattening any number of empty placeholder chunks adds no bytes. -/
theorem flatten_replicate_nil (n : Nat) : (List.replicate n ([] : ByteStr)).flatten = [] := by
  induction n with
  | zero => rfl
  | succ n ih => simp [List.replicate_succ, ih]

/-- The body read loop stops exactly at the first zero-length read. -/
theorem bodyReads_stops (datas junk : List ByteStr) (h : ∀ d ∈ datas, d ≠ []) :
    bodyReads (datas ++ [] :: junk) = datas := by
  induction datas with
  | nil => simp [bodyReads]
  | cons d ds ih =>
    have hd : d ≠ [] := h d (by simp)
    have ih' := ih (fun x hx => h x (by simp [hx]))
    simp only [List.cons_append, bodyReads, if_neg hd, List.append_eq] at ih' ⊢
    rw [ih']

/-- Claim C2: for every remainder and every sequence of subsequent stdout
reads ending in a zero-length read (`datas` all non-empty, then the
zero-length read, then whatever the model would offer afterwards), the body
generator yields the remainder first (even when it is empty, without
terminating the stream), then each non-empty read in order, and the
concatenation of everything yielded is the remainder followed by exactly the
bytes read before the zero-length read; the `polls` trailing empty
placeholders change nothing. -/
theorem claim_C2_body_stream (rem : ByteStr) (datas junk : List ByteStr) (polls : Nat)
    (h : ∀ d ∈ datas, d ≠ []) :
    bodyGen rem (datas ++ [] :: junk) polls = rem :: (datas ++ List.replicate polls [])
    ∧ (bodyGen rem (datas ++ [] :: junk) polls).flatten = rem ++ datas.flatten
    ∧ (bodyGen rem (datas ++ [] :: junk) polls).head? = some rem := by
  have hb := bodyReads_stops datas junk h
  refine ⟨by simp [bodyGen, hb], ?_, by simp [bodyGen]⟩
  simp [bodyGen, hb, flatten_replicate_nil]

/-- Witness for C2 at a concrete input, with an empty remainder. -/
theorem claim_C2_witness :
    bodyGen [] ([bytes "ab", bytes "c"] ++ [] :: [bytes "zz"]) 2
        = [] :: ([bytes "ab", bytes "c"] ++ List.replicate 2 [])
    ∧ (bodyGen [] ([bytes "ab", bytes "c"] ++ [] :: [bytes "zz"]) 2).flatten
        = [] ++ [bytes "ab", bytes "c"].flatten
    ∧ (bodyGen [] ([bytes "ab", bytes "c"] ++ [] :: [bytes "zz"]) 2).head? = some [] :=
  claim_C2_body_stream [] [bytes "ab", bytes "c"] [bytes "zz"] 2 (by decide)

/-- Claim C1 (code bug): the concrete stdout partition `["\r\n", "\r\nX"]` of
the byte sequence `"\r\n\r\nX"`, which contains exactly one occurrence of the
header terminator, at position 0 (well within the maximum header size).  The
scan locates a straddling boundary with the negative Python index `-1`, and
`_separate_header` then returns the header `"\r\r\n"` and the remainder
`"\nX"`, whereas the claim requires the header `"" + CRLF = "\r\n"` and a
remainder reassembling to `"X"`. -/
theorem claim_C1_split_bug :
    communicate [bytes "\r\n", bytes "\r\nX"] = .ok (bytes "\r\r\n", bytes "\nX", [])
    ∧ bytes "\r\n" ++ bytes "\r\nX" = bytes "\r\n\r\nX"
    ∧ (List.range 5).filter (fun i => headerEnd.isPrefixOf ((bytes "\r\n\r\nX").drop i)) = [0]
    ∧ bytes "\r\r\n" ≠ bytes "" ++ crlf
    ∧ bytes "\nX" ++ ([] : ByteStr) ≠ (bytes "\r\n\r\nX").drop 4 :=
  ⟨rfl, by decide, by decide, by decide, by decide⟩

/-- Claim C8 counterexample: a present but unparseable `CONTENT_LENGTH`
(here `"abc"`) raises `ValueError` instead of being treated as zero. -/
theorem claim_C8_cex :
    contentLengthOf (some (bytes "abc")) = .error ()
    ∧ ∀ n : Int, contentLengthOf (some (bytes "abc")) ≠ .ok n :=
  ⟨rfl, fun n h => by
    rw [show contentLengthOf (some (bytes "abc")) = .error () from rfl] at h
    exact Except.noConfusion h⟩

/-- Claim C8 (amended): an absent or exactly-empty `CONTENT_LENGTH` is
treated as zero; a non-empty value is passed to `int`, whose result is used
when it parses and whose `ValueError` propagates (rather than yielding zero)
when it does not. -/
theorem claim_C8_content_length :
    contentLengthOf none = .ok 0
    ∧ contentLengthOf (some []) = .ok 0
    ∧ (∀ s : ByteStr, s ≠ [] → pyInt s = none → contentLengthOf (some s) = .error ())
    ∧ (∀ (s : ByteStr) (n : Int), s ≠ [] → pyInt s = some n → contentLengthOf (some s) = .ok n) := by
  refine ⟨rfl, rfl, ?_, ?_⟩
  · intro s hne hp
    simp [contentLengthOf, hne, hp]
  · intro s n hne hp
    simp [contentLengthOf, hne, hp]

/-- Witness for C8 at concrete values. -/
theorem claim_C8_witness :
    contentLengthOf (some (bytes "abc")) = .error ()
    ∧ contentLengthOf (some (bytes "10")) = .ok 10 :=
  ⟨claim_C8_content_length.2.2.1 (bytes "abc") (by decide) (by decide),
    claim_C8_content_length.2.2.2 (bytes "10") 10 (by decide) (by decide)⟩

/-- From a state where the next read returns zero bytes while fewer than
`input_length` bytes have been read, the pump loop re-issues the same read
forever: no fuel makes it finish. -/
theorem pumpGo_stuck (readFn : Nat → Nat → ByteStr) (inputLength : Nat) :
    ∀ fuel pos, pos < inputLength →
      readFn pos (min defaultChunkSize (inputLength - pos)) = [] →
      pumpGo readFn inputLength fuel pos = none := by
  intro fuel
  induction fuel with
  | zero => intro pos _ _; rfl
  | succ fuel ih =>
    intro pos hpos hread
    simp only [pumpGo, if_pos hpos, hread, List.length_nil, Nat.add_zero]
    rw [ih pos hpos hread]

/-- As long as every issued read returns at least one byte, the pump loop
finishes (and closes stdin) within `inputLength` iterations. -/
theorem pumpGo_progress (readFn : Nat → Nat → ByteStr) (inputLength : Nat)
    (h : ∀ p n, p < inputLength → 0 < n → readFn p n ≠ []) :
    ∀ fuel pos, inputLength - pos < fuel →
      (pumpGo readFn inputLength fuel pos).isSome = true := by
  intro fuel
  induction fuel with
  | zero => intro pos hf; omega
  | succ fuel ih =>
    intro pos hf
    by_cases hp : pos < inputLength
    · have hn : 0 < min defaultChunkSize (inputLength - pos) := by
        have : 0 < defaultChunkSize := by decide
        omega
      have hdata : readFn pos (min defaultChunkSize (inputLength - pos)) ≠ [] :=
        h pos _ hp hn
      have hlen : 0 < (readFn pos (min defaultChunkSize (inputLength - pos))).length :=
        List.length_pos.mpr hdata
      simp only [pumpGo, if_pos hp]
      have hrec := ih (pos + (readFn pos (min defaultChunkSize (inputLength - pos))).length)
        (by omega)
      obtain ⟨ws, hws⟩ := Option.isSome_iff_exists.mp hrec
      rw [hws]
      rfl
    · simp [pumpGo, hp]

/-- Claim C9: the pump loop terminates, after which stdin is closed, whenever
every read it performs returns at least one byte until the declared total is
reached; and from any state where a read returns zero bytes while fewer than
the declared number of bytes have been read, the loop never terminates (the
result is `none` for every fuel), so stdin is never closed. -/
theorem claim_C9_pump_termination (readFn : Nat → Nat → ByteStr) (inputLength : Nat) :
    ((∀ p n, p < inputLength → 0 < n → readFn p n ≠ []) →
      (pump readFn inputLength).isSome = true)
    ∧ (∀ fuel pos, pos < inputLength →
        readFn pos (min defaultChunkSize (inputLength - pos)) = [] →
        pumpGo readFn inputLength fuel pos = none) :=
  ⟨fun h => pumpGo_progress readFn inputLength h (inputLength + 1) 0 (by omega),
    pumpGo_stuck readFn inputLength⟩

/-- Witness for C9: a stream that always yields one byte terminates; a stream
that yields nothing leaves the loop running at any fuel. -/
theorem claim_C9_witness :
    (pump (fun _ _ => [7]) 3).isSome = true
    ∧ pumpGo (fun _ _ => ([] : ByteStr)) 1 5 0 = none :=
  ⟨(claim_C9_pump_termination (fun _ _ => [7]) 3).1 (fun _ _ _ _ => by decide),
    (claim_C9_pump_termination (fun _ _ => ([] : ByteStr)) 1).2 5 0 (by decide) rfl⟩

/-- Prefix sums of the requested sizes never exceed the total. -/
theorem sum_map_take_le {α : Type} (f : α → Nat) (l : List α) (i : Nat) :
    ((l.take i).map f).sum ≤ (l.map f).sum := by
  induction l generalizing i with
  | nil => simp
  | cons a l ih =>
    cases i with
    | zero => simp
    | succ i =>
      simp only [List.take_succ_cons, List.map_cons, List.sum_cons]
      exact Nat.add_le_add_left (ih i) _

/-- The pump loop on a full-reads stream: from position `pos` with
`inputLength - pos` bytes still to transfer, it finishes and transfers
exactly the bytes `pos ..< inputLength` of the stream. -/
theorem pumpGo_fullRead (s : ByteStr) (inputLength : Nat) (hs : inputLength ≤ s.length) :
    ∀ fuel pos, pos ≤ inputLength → inputLength - pos < fuel →
    ∃ ws, pumpGo (fullRead s) inputLength fuel pos = some ws
      ∧ (ws.map Prod.snd).flatten = (s.drop pos).take (inputLength - pos)
      ∧ (∀ p ∈ ws, p.1 ≤ defaultChunkSize ∧ p.2.length = p.1)
      ∧ (ws.map Prod.fst).sum = inputLength - pos := by
  intro fuel
  induction fuel with
  | zero => intro pos _ hf; omega
  | succ fuel ih =>
    intro pos hple hf
    by_cases hp : pos < inputLength
    · have hchunk : 0 < defaultChunkSize := by decide
      have hn1 : 0 < min defaultChunkSize (inputLength - pos) := by omega
      have hnle : min defaultChunkSize (inputLength - pos) ≤ inputLength - pos :=
        Nat.min_le_right _ _
      have hlen : (fullRead s pos (min defaultChunkSize (inputLength - pos))).length
          = min defaultChunkSize (inputLength - pos) := by
        simp only [fullRead, List.length_take, List.length_drop]
        omega
      obtain ⟨ws, hws, hflat, hbound, hsum⟩ :=
        ih (pos + min defaultChunkSize (inputLength - pos)) (by omega) (by omega)
      refine ⟨(min defaultChunkSize (inputLength - pos),
          fullRead s pos (min defaultChunkSize (inputLength - pos))) :: ws, ?_, ?_, ?_, ?_⟩
      · simp only [pumpGo, if_pos hp, hlen, hws]
      · simp only [List.map_cons, List.flatten_cons, hflat]
        have hdd : (s.drop pos).drop (min defaultChunkSize (inputLength - pos))
            = s.drop (pos + min defaultChunkSize (inputLength - pos)) := by
          rw [List.drop_drop]
        rw [show fullRead s pos (min defaultChunkSize (inputLength - pos))
            = (s.drop pos).take (min defaultChunkSize (inputLength - pos)) from rfl]
        rw [← hdd, ← List.take_add]
        congr 1
        omega
      · intro p hpmem
        rcases List.mem_cons.mp hpmem with hpe | hpm
        · subst hpe
          exact ⟨Nat.min_le_left _ _, hlen⟩
        · exact hbound p hpm
      · simp only [List.map_cons, List.sum_cons, hsum]
        omega
    · have hpos : pos = inputLength := by omega
      subst hpos
      exact ⟨[], by simp [pumpGo, hp], by simp, by simp, by simp⟩

/-- Claim C3: for a declared input length `inputLength` and an input stream
offering at least that many bytes, each read returning the full requested
count (`fullRead s`), the pump loop terminates (after which stdin is
closed), writes exactly the first `inputLength` bytes of the stream, in
chunks whose requested sizes are at most `DEFAULT_CHUNK_SIZE` (each read
returning exactly what was requested), and the total — hence every prefix —
of the requested sizes never passes `inputLength`, even when the stream
offers more bytes. -/
theorem claim_C3_input_pump (s : ByteStr) (inputLength : Nat) (hs : inputLength ≤ s.length) :
    ∃ ws, pump (fullRead s) inputLength = some ws
      ∧ (ws.map Prod.snd).flatten = s.take inputLength
      ∧ (∀ p ∈ ws, p.1 ≤ defaultChunkSize ∧ p.2.length = p.1)
      ∧ (ws.map Prod.fst).sum = inputLength
      ∧ (∀ i, ((ws.take i).map Prod.fst).sum ≤ inputLength) := by
  obtain ⟨ws, hws, hflat, hbound, hsum⟩ :=
    pumpGo_fullRead s inputLength hs (inputLength + 1) 0 (by omega) (by omega)
  refine ⟨ws, hws, by simpa using hflat, hbound, by simpa using hsum, ?_⟩
  intro i
  calc ((ws.take i).map Prod.fst).sum ≤ (ws.map Prod.fst).sum := sum_map_take_le _ _ _
    _ = inputLength := by simpa using hsum

/-- Witness for C3: declared length 10 against a stream offering 20 bytes. -/
theorem claim_C3_witness :
    10 ≤ (bytes "aaaaabbbbbcccccddddd").length
    ∧ ∃ ws, pump (fullRead (bytes "aaaaabbbbbcccccddddd")) 10 = some ws
      ∧ (ws.map Prod.snd).flatten = (bytes "aaaaabbbbbcccccddddd").take 10
      ∧ (∀ p ∈ ws, p.1 ≤ defaultChunkSize ∧ p.2.length = p.1)
      ∧ (ws.map Prod.fst).sum = 10
      ∧ (∀ i, ((ws.take i).map Prod.fst).sum ≤ 10) :=
  ⟨by decide, claim_C3_input_pump (bytes "aaaaabbbbbcccccddddd") 10 (by decide)⟩

/-! ## Lemmas about the header parse loop -/

/-- Looking a key up in a one-step-extended dictionary. -/
theorem dictGet_cons (p : ByteStr × ByteStr) (d : List (ByteStr × ByteStr)) (k : ByteStr) :
    dictGet (p :: d) k = if p.1 = k then some p.2 else dictGet d k := by
  by_cases h : p.1 = k
  · simp [dictGet, List.find?_cons, h]
  · simp [dictGet, List.find?_cons, h, beq_false_of_ne h]

/-- `dict[k] = v` changes exactly the binding of `k`. -/
theorem dictGet_dictSet (d : List (ByteStr × ByteStr)) (k v k' : ByteStr) :
    dictGet (dictSet d k v) k' = if k' = k then some v else dictGet d k' := by
  induction d with
  | nil =>
    rw [show dictSet [] k v = [(k, v)] from rfl, dictGet_cons]
    by_cases h : k' = k
    · subst h; simp
    · have h2 : k ≠ k' := fun hh => h hh.symm
      simp [h, h2, dictGet]
  | cons p d ih =>
    simp only [dictSet]
    by_cases hpk : p.1 = k
    · rw [if_pos hpk, dictGet_cons, dictGet_cons]
      by_cases h : k' = k
      · subst h; simp
      · have h2 : k ≠ k' := fun hh => h hh.symm
        have h3 : p.1 ≠ k' := by rw [hpk]; exact h2
        simp [h, h2, h3]
    · rw [if_neg hpk, dictGet_cons, dictGet_cons, ih]
      by_cases hpk' : p.1 = k'
      · have hkk : k' ≠ k := fun hh => hpk (hpk'.trans hh)
        simp [hpk', hkk]
      · simp [hpk']

/-- Folding the entry list into a dictionary is a no-op on the empty list. -/
theorem dictFold_nil (d : List (ByteStr × ByteStr)) : dictFold d [] = d := rfl

/-- Folding the entry list one entry at a time. -/
theorem dictFold_cons (d : List (ByteStr × ByteStr)) (e : ByteStr × ByteStr)
    (es : List (ByteStr × ByteStr)) : dictFold d (e :: es) = dictFold (dictSet d e.1 e.2) es := rfl

/-- The last value for a key, one entry at a time. -/
theorem lastVal_cons (e : ByteStr × ByteStr) (es : List (ByteStr × ByteStr)) (k : ByteStr) :
    lastVal (e :: es) k = match lastVal es k with
      | some v => some v
      | none => if e.1 = k then some e.2 else none := by
  simp only [lastVal, List.reverse_cons, List.find?_append]
  cases hf : List.find? (fun p => p.1 == k) es.reverse with
  | some x => simp [Option.or]
  | none =>
    by_cases h : e.1 = k
    · simp [Option.or, List.find?_cons, h]
    · simp [Option.or, List.find?_cons, h, beq_false_of_ne h]

/-- The dictionary produced by the loop holds, for every key, the value of
the last line that used it. -/
theorem dictGet_dictFold (es : List (ByteStr × ByteStr)) : ∀ d k,
    dictGet (dictFold d es) k = match lastVal es k with
      | some v => some v
      | none => dictGet d k := by
  induction es with
  | nil => intro d k; rfl
  | cons e es ih =>
    intro d k
    rw [dictFold_cons, ih, lastVal_cons, dictGet_dictSet]
    cases hl : lastVal es k with
    | some v => rfl
    | none =>
      simp only []
      by_cases h : e.1 = k
      · simp [h]
      · have h2 : k ≠ e.1 := fun hh => h hh.symm
        simp [h, h2]

/-- Popping one key leaves every other key unchanged. -/
theorem dictGet_dictPop (d : List (ByteStr × ByteStr)) (k k' : ByteStr) (h : k' ≠ k) :
    dictGet (dictPop d k) k' = dictGet d k' := by
  induction d with
  | nil => rfl
  | cons p d ih =>
    by_cases hpk : p.1 = k
    · have hpk' : p.1 ≠ k' := by rw [hpk]; exact fun hh => h hh.symm
      have hstep : dictPop (p :: d) k = dictPop d k := by
        simp [dictPop, List.filter_cons, hpk]
      rw [hstep, ih, dictGet_cons, if_neg hpk']
    · have hstep : dictPop (p :: d) k = p :: dictPop d k := by
        simp [dictPop, List.filter_cons, beq_false_of_ne hpk]
      rw [hstep, dictGet_cons, dictGet_cons, ih]

/-- Every name the loop records is a non-`Status` name with a last value. -/
theorem mem_okNames (es : List (ByteStr × ByteStr)) (n : ByteStr) (h : n ∈ okNames es) :
    n ≠ statusKey ∧ ∃ v, lastVal es n = some v := by
  obtain ⟨p, hpmem, hpn⟩ := List.mem_map.mp h
  have hfil := List.mem_filter.mp hpmem
  constructor
  · intro hn
    have hb := hfil.2
    rw [hpn, hn] at hb
    simp at hb
  · have hrev : p ∈ es.reverse := List.mem_reverse.mpr hfil.1
    have hsome : ((es.reverse).find? (fun q => q.1 == n)).isSome = true :=
      List.find?_isSome.mpr ⟨p, hrev, by simp [hpn]⟩
    obtain ⟨q, hq⟩ := Option.isSome_iff_exists.mp hsome
    exact ⟨q.2, by simp [lastVal, hq]⟩

/-- The loop of `parse_cgi_header`, characterised by the per-line entries:
it fails exactly when some line fails to parse, and otherwise produces the
folded dictionary and the recorded names. -/
theorem processLines_eq (ls : List ByteStr) : ∀ d ns, processLines ls d ns =
    match lineEntries ls with
    | none => .error ()
    | some es => .ok (dictFold d es, ns ++ okNames es) := by
  induction ls with
  | nil => intro d ns; simp [processLines, lineEntries, dictFold, okNames]
  | cons l ls ih =>
    intro d ns
    simp only [processLines, lineEntries]
    cases hpl : parseLine l with
    | none => rfl
    | some e =>
      obtain ⟨n, v⟩ := e
      dsimp only
      rw [ih]
      cases hle : lineEntries ls with
      | none => rfl
      | some es =>
        dsimp only
        rw [dictFold_cons]
        by_cases hn : n = statusKey
        · simp [okNames, List.filter_cons, hn]
        · simp [okNames, List.filter_cons, hn, beq_false_of_ne hn]

/-- `parse_cgi_header`, characterised by the per-line entries. -/
theorem parseCgiHeader_eq (raw : ByteStr) :
    parseCgiHeader raw =
      if (pySplit crlf raw).getLastD [] = [] then
        match lineEntries ((pySplit crlf raw).dropLast) with
        | none => .error ()
        | some es =>
          .ok (statusOf es, (okNames es).map (fun n => (n, (lastVal es n).getD [])))
      else .error () := by
  simp only [parseCgiHeader]
  by_cases hlast : (pySplit crlf raw).getLastD [] = []
  · rw [if_pos hlast, if_pos hlast, processLines_eq]
    cases hle : lineEntries ((pySplit crlf raw).dropLast) with
    | none => rfl
    | some es =>
      simp only []
      congr 1
      refine Prod.ext ?_ ?_
      · show (match dictGet (dictFold [] es) statusKey with
          | some v => if v = [] then ok200 else v
          | none => ok200) = statusOf es
        rw [dictGet_dictFold]
        rw [show dictGet ([] : List (ByteStr × ByteStr)) statusKey = none from rfl]
        cases hl : lastVal es statusKey with
        | none => simp [statusOf, hl]
        | some v => simp [statusOf, hl]
      · show ([] ++ okNames es).map
            (fun n => (n, (dictGet (dictPop (dictFold [] es) statusKey) n).getD []))
          = (okNames es).map (fun n => (n, (lastVal es n).getD []))
        rw [List.nil_append]
        apply List.map_congr_left
        intro n hn
        obtain ⟨hnst, v, hv⟩ := mem_okNames es n hn
        rw [dictGet_dictPop _ _ _ hnst, dictGet_dictFold, hv]
  · rw [if_neg hlast, if_neg hlast]

/-- The per-line parses fail exactly when some line fails. -/
theorem lineEntries_none_iff (ls : List ByteStr) :
    lineEntries ls = none ↔ ∃ l ∈ ls, parseLine l = none := by
  induction ls with
  | nil => simp [lineEntries]
  | cons l ls ih =>
    simp only [lineEntries]
    cases hpl : parseLine l with
    | none => exact iff_of_true rfl ⟨l, by simp, hpl⟩
    | some e =>
      cases hle : lineEntries ls with
      | none =>
        obtain ⟨l', hl', hfail⟩ := ih.mp hle
        exact iff_of_true rfl ⟨l', by simp [hl'], hfail⟩
      | some es =>
        refine iff_of_false (by simp) ?_
        rintro ⟨l', hmem, hfail⟩
        rcases List.mem_cons.mp hmem with rfl | hmem'
        · rw [hpl] at hfail; exact Option.noConfusion hfail
        · rw [ih.mpr ⟨l', hmem', hfail⟩] at hle; exact Option.noConfusion hle

/-- Every line of a successfully parsed line list contributes an entry. -/
theorem lineEntries_mem (ls : List ByteStr) :
    ∀ es, lineEntries ls = some es → ∀ l ∈ ls, ∃ e ∈ es, parseLine l = some e := by
  induction ls with
  | nil => intro es _ l hl; cases hl
  | cons l0 ls ih =>
    intro es h l hl
    simp only [lineEntries] at h
    cases hpl : parseLine l0 with
    | none => rw [hpl] at h; exact Option.noConfusion h
    | some e0 =>
      rw [hpl] at h
      cases hle : lineEntries ls with
      | none => rw [hle] at h; exact Option.noConfusion h
      | some es' =>
        rw [hle] at h
        injection h with h
        subst h
        rcases List.mem_cons.mp hl with rfl | hmem
        · exact ⟨e0, by simp, hpl⟩
        · obtain ⟨e, he, hpe⟩ := ih es' hle l hmem
          exact ⟨e, by simp [he], hpe⟩

/-- Splitting at a one-byte separator fails exactly when the byte is
absent. -/
theorem splitFirstSub_single_none_iff (c : Nat) (s : ByteStr) :
    splitFirstSub [c] s = none ↔ c ∉ s := by
  induction s with
  | nil => simp [splitFirstSub, List.isPrefixOf]
  | cons a rest ih =>
    simp only [splitFirstSub]
    by_cases h : c = a
    · subst h
      have hpre : [c].isPrefixOf (c :: rest) = true := by simp [List.isPrefixOf]
      simp [hpre]
    · have hpre : ([c].isPrefixOf (a :: rest)) = false := by
        simp [List.isPrefixOf, h]
      simp [hpre, Option.map_eq_none', ih, h]

/-- A byte that the predicate rejects survives `dropWhile`. -/
theorem mem_dropWhile_of_neg {p : Nat → Bool} {c : Nat} (hc : p c = false) :
    ∀ l : ByteStr, c ∈ l → c ∈ l.dropWhile p := by
  intro l
  induction l with
  | nil => intro h; cases h
  | cons a l ih =>
    intro hmem
    by_cases hpa : p a = true
    · rw [List.dropWhile_cons_of_pos hpa]
      rcases List.mem_cons.mp hmem with rfl | hm
      · rw [hc] at hpa; exact Bool.noConfusion hpa
      · exact ih hm
    · rw [List.dropWhile_cons_of_neg hpa]
      exact hmem

/-- Stripping preserves membership of non-whitespace bytes. -/
theorem mem_pyStrip_iff (c : Nat) (hc : isPySpace c = false) (s : ByteStr) :
    c ∈ pyStrip s ↔ c ∈ s := by
  constructor
  · intro h
    have h1 : c ∈ ((s.dropWhile isPySpace).reverse.dropWhile isPySpace) :=
      List.mem_reverse.mp h
    have h2 : c ∈ (s.dropWhile isPySpace).reverse :=
      List.Sublist.mem h1 (List.dropWhile_sublist _)
    have h3 : c ∈ s.dropWhile isPySpace := List.mem_reverse.mp h2
    exact List.Sublist.mem h3 (List.dropWhile_sublist _)
  · intro h
    apply List.mem_reverse.mpr
    apply mem_dropWhile_of_neg hc
    apply List.mem_reverse.mpr
    exact mem_dropWhile_of_neg hc _ h

/-- A line fails to parse exactly when it contains no colon (byte 58);
stripping removes only whitespace, so the stripped and unstripped views
agree. -/
theorem parseLine_none_iff (l : ByteStr) : parseLine l = none ↔ (58 : Nat) ∉ l := by
  have h58 : isPySpace 58 = false := rfl
  simp only [parseLine]
  cases hsp : splitFirstSub [58] (pyStrip l) with
  | none =>
    have hmem := (splitFirstSub_single_none_iff 58 (pyStrip l)).mp hsp
    rw [mem_pyStrip_iff 58 h58] at hmem
    exact iff_of_true rfl hmem
  | some p =>
    refine iff_of_false (by simp) (fun hnotin => ?_)
    have hmem : (58 : Nat) ∉ pyStrip l :=
      fun hm => hnotin ((mem_pyStrip_iff 58 h58 l).mp hm)
    have hnone := (splitFirstSub_single_none_iff 58 (pyStrip l)).mpr hmem
    rw [hnone] at hsp
    exact Option.noConfusion hsp

/-- `parse_cgi_header` fails exactly on a non-empty final split element or a
colon-less non-final line. -/
theorem parse_error_iff (raw : ByteStr) :
    parseCgiHeader raw = .error () ↔
      ((pySplit crlf raw).getLastD [] ≠ []
        ∨ ∃ l ∈ (pySplit crlf raw).dropLast, (58 : Nat) ∉ l) := by
  rw [parseCgiHeader_eq]
  by_cases hlast : (pySplit crlf raw).getLastD [] = []
  · rw [if_pos hlast]
    cases hle : lineEntries ((pySplit crlf raw).dropLast) with
    | none =>
      obtain ⟨l, hl, hfail⟩ := (lineEntries_none_iff _).mp hle
      exact iff_of_true rfl (Or.inr ⟨l, hl, (parseLine_none_iff l).mp hfail⟩)
    | some es =>
      refine iff_of_false (by simp) ?_
      rintro (h | ⟨l, hl, hnocolon⟩)
      · exact h hlast
      · rw [(lineEntries_none_iff _).mpr
          ⟨l, hl, (parseLine_none_iff l).mpr hnocolon⟩] at hle
        exact Option.noConfusion hle
  · exact iff_of_true (if_neg hlast) (Or.inl hlast)

/-- Components of a successful parse, given the per-line entries. -/
theorem parse_ok_components (raw st : ByteStr) (hs : List (ByteStr × ByteStr))
    (es : List (ByteStr × ByteStr))
    (hok : parseCgiHeader raw = .ok (st, hs))
    (hes : lineEntries ((pySplit crlf raw).dropLast) = some es) :
    st = statusOf es ∧ hs = (okNames es).map (fun n => (n, (lastVal es n).getD [])) := by
  rw [parseCgiHeader_eq] at hok
  by_cases hlast : (pySplit crlf raw).getLastD [] = []
  · rw [if_pos hlast, hes] at hok
    dsimp only at hok
    injection hok with hpair
    injection hpair with h1 h2
    exact ⟨h1.symm, h2.symm⟩
  · rw [if_neg hlast] at hok
    exact Except.noConfusion hok

/-- Claim C5 counterexample: the well-formed header `"Status:\r\n"` has a
`Status` field whose (empty) value does not become the status line — the
parser returns `"200 OK"` instead, so "its value becomes the returned status
line" fails as stated. -/
theorem claim_C5_cex :
    parseCgiHeader (bytes "Status:\r\n") = .ok (bytes "200 OK", [])
    ∧ lineEntries ((pySplit crlf (bytes "Status:\r\n")).dropLast) = some [(statusKey, [])]
    ∧ bytes "200 OK" ≠ ([] : ByteStr) :=
  ⟨rfl, rfl, by decide⟩

/-- Claim C5 (amended): for every well-formed raw header, the value of the
last `Status` line becomes the returned status line when it is non-empty;
when no `Status` field is present (or its last value is empty, see C10) the
status line is `"200 OK"`; `Status` is excluded from the returned header
list; and the claim's concrete example parses as stated. -/
theorem claim_C5_status (raw st : ByteStr) (hs es : List (ByteStr × ByteStr))
    (hok : parseCgiHeader raw = .ok (st, hs))
    (hes : lineEntries ((pySplit crlf raw).dropLast) = some es) :
    (∀ v, lastVal es statusKey = some v → v ≠ [] → st = v)
    ∧ (lastVal es statusKey = none → st = ok200)
    ∧ (∀ p ∈ hs, p.1 ≠ statusKey)
    ∧ parseCgiHeader (bytes "Status: 404 Not Found\r\nContent-Type: text/plain\r\n")
        = .ok (bytes "404 Not Found", [(bytes "Content-Type", bytes "text/plain")]) := by
  obtain ⟨hst, hhs⟩ := parse_ok_components raw st hs es hok hes
  refine ⟨?_, ?_, ?_, rfl⟩
  · intro v hv hne
    rw [hst]
    simp [statusOf, hv, hne]
  · intro hv
    rw [hst]
    simp [statusOf, hv]
  · intro p hp
    rw [hhs] at hp
    obtain ⟨n, hn, hpn⟩ := List.mem_map.mp hp
    subst hpn
    exact (mem_okNames es n hn).1

/-- Witness for C5 at the claim's concrete example. -/
theorem claim_C5_witness :
    (∀ v, lastVal [(statusKey, bytes "404 Not Found"),
        (bytes "Content-Type", bytes "text/plain")] statusKey = some v → v ≠ [] →
        bytes "404 Not Found" = v)
    ∧ (lastVal [(statusKey, bytes "404 Not Found"),
        (bytes "Content-Type", bytes "text/plain")] statusKey = none →
        bytes "404 Not Found" = ok200)
    ∧ (∀ p ∈ [(bytes "Content-Type", bytes "text/plain")], p.1 ≠ statusKey)
    ∧ parseCgiHeader (bytes "Status: 404 Not Found\r\nContent-Type: text/plain\r\n")
        = .ok (bytes "404 Not Found", [(bytes "Content-Type", bytes "text/plain")]) :=
  claim_C5_status (bytes "Status: 404 Not Found\r\nContent-Type: text/plain\r\n")
    (bytes "404 Not Found") [(bytes "Content-Type", bytes "text/plain")]
    [(statusKey, bytes "404 Not Found"), (bytes "Content-Type", bytes "text/plain")]
    rfl rfl

/-- Claim C6 counterexample: the duplicate name `A` yields two list entries
(one per occurrence), not exactly one. -/
theorem claim_C6_cex :
    parseCgiHeader (bytes "A: 1\r\nA: 2\r\n")
      = .ok (bytes "200 OK", [(bytes "A", bytes "2"), (bytes "A", bytes "2")])
    ∧ ([(bytes "A", bytes "2"), (bytes "A", bytes "2")].filter
        (fun p => p.1 == bytes "A")).length ≠ 1 :=
  ⟨rfl, by decide⟩

/-- Claim C6 (amended): for every well-formed raw header, the returned list
has one entry per non-`Status` line, in line order (duplicate names appear
once per line that used them), and every entry carries the value of the last
line that used its name. -/
theorem claim_C6_duplicate_names (raw st : ByteStr) (hs es : List (ByteStr × ByteStr))
    (hok : parseCgiHeader raw = .ok (st, hs))
    (hes : lineEntries ((pySplit crlf raw).dropLast) = some es) :
    hs = (okNames es).map (fun n => (n, (lastVal es n).getD []))
    ∧ hs.map Prod.fst = okNames es
    ∧ (∀ p ∈ hs, lastVal es p.1 = some p.2) := by
  obtain ⟨hst, hhs⟩ := parse_ok_components raw st hs es hok hes
  refine ⟨hhs, ?_, ?_⟩
  · rw [hhs, List.map_map]
    rw [show (Prod.fst ∘ fun n => (n, (lastVal es n).getD [])) = id from rfl]
    exact List.map_id _
  · intro p hp
    rw [hhs] at hp
    obtain ⟨n, hn, hpn⟩ := List.mem_map.mp hp
    obtain ⟨-, v, hv⟩ := mem_okNames es n hn
    subst hpn
    simp [hv]

/-- Witness for C6 at the duplicate-name example. -/
theorem claim_C6_witness :
    [(bytes "A", bytes "2"), (bytes "A", bytes "2")]
      = (okNames [(bytes "A", bytes "1"), (bytes "A", bytes "2")]).map
          (fun n => (n, (lastVal [(bytes "A", bytes "1"), (bytes "A", bytes "2")] n).getD []))
    ∧ ([(bytes "A", bytes "2"), (bytes "A", bytes "2")].map Prod.fst)
        = okNames [(bytes "A", bytes "1"), (bytes "A", bytes "2")]
    ∧ (∀ p ∈ [(bytes "A", bytes "2"), (bytes "A", bytes "2")],
        lastVal [(bytes "A", bytes "1"), (bytes "A", bytes "2")] p.1 = some p.2) :=
  claim_C6_duplicate_names (bytes "A: 1\r\nA: 2\r\n") (bytes "200 OK")
    [(bytes "A", bytes "2"), (bytes "A", bytes "2")]
    [(bytes "A", bytes "1"), (bytes "A", bytes "2")] rfl rfl

/-- Claim C7 counterexample: in `"Foo :bar\r\n"` the field name keeps its
trailing whitespace (`"Foo "`), so "both are trimmed of surrounding
whitespace" fails for the name. -/
theorem claim_C7_cex :
    parseCgiHeader (bytes "Foo :bar\r\n") = .ok (bytes "200 OK", [(bytes "Foo ", bytes "bar")])
    ∧ bytes "Foo " ≠ bytes "Foo" :=
  ⟨rfl, by decide⟩

/-- Claim C7 (amended): parsing fails exactly when the last element after
splitting on CRLF is non-empty or some non-final line contains no colon
(byte 58); on success, every non-final line is trimmed of surrounding
whitespace and then split at its first colon, the part before the colon
becoming the name as-is (whitespace adjacent to the colon is kept) and the
part after, trimmed again, becoming the value. -/
theorem claim_C7_malformed (raw : ByteStr) :
    (parseCgiHeader raw = .error () ↔
      ((pySplit crlf raw).getLastD [] ≠ []
        ∨ ∃ l ∈ (pySplit crlf raw).dropLast, (58 : Nat) ∉ l))
    ∧ (∀ st hs, parseCgiHeader raw = .ok (st, hs) →
        ∃ es, lineEntries ((pySplit crlf raw).dropLast) = some es
          ∧ ∀ l ∈ (pySplit crlf raw).dropLast, ∃ n pv,
              splitFirstSub [58] (pyStrip l) = some (n, pv) ∧ (n, pyStrip pv) ∈ es) := by
  refine ⟨parse_error_iff raw, ?_⟩
  intro st hs hok
  rw [parseCgiHeader_eq] at hok
  by_cases hlast : (pySplit crlf raw).getLastD [] = []
  · rw [if_pos hlast] at hok
    cases hle : lineEntries ((pySplit crlf raw).dropLast) with
    | none => rw [hle] at hok; exact Except.noConfusion hok
    | some es =>
      refine ⟨es, rfl, ?_⟩
      intro l hl
      obtain ⟨e, he, hpe⟩ := lineEntries_mem _ es hle l hl
      simp only [parseLine] at hpe
      cases hsp : splitFirstSub [58] (pyStrip l) with
      | none => rw [hsp] at hpe; exact Option.noConfusion hpe
      | some q =>
        obtain ⟨n, pv⟩ := q
        rw [hsp] at hpe
        dsimp only at hpe
        injection hpe with hpe
        refine ⟨n, pv, rfl, ?_⟩
        rw [hpe]
        exact he
  · rw [if_neg hlast] at hok
    exact Except.noConfusion hok

/-- Witness for C7: a header with no final CRLF is rejected. -/
theorem claim_C7_witness : parseCgiHeader (bytes "A") = .error () :=
  (claim_C7_malformed (bytes "A")).1.mpr (Or.inl (by decide))

/-- Claim C10 counterexample: the header `"Status:\r\nStatus: 404 Not
Found\r\n"` contains a `Status` line whose trimmed value is empty, yet the
parser returns `"404 Not Found"` (the last `Status` line wins), not
`"200 OK"`. -/
theorem claim_C10_cex :
    parseCgiHeader (bytes "Status:\r\nStatus: 404 Not Found\r\n")
      = .ok (bytes "404 Not Found", [])
    ∧ lineEntries ((pySplit crlf (bytes "Status:\r\nStatus: 404 Not Found\r\n")).dropLast)
        = some [(statusKey, []), (statusKey, bytes "404 Not Found")]
    ∧ bytes "404 Not Found" ≠ ok200 :=
  ⟨rfl, rfl, by decide⟩

/-- Claim C10 (amended): for every well-formed raw header whose last
`Status` line has a value that trims to the empty string, the parser returns
the default status line `"200 OK"`, and `Status` is still excluded from the
returned header list. -/
theorem claim_C10_empty_status (raw st : ByteStr) (hs es : List (ByteStr × ByteStr))
    (hok : parseCgiHeader raw = .ok (st, hs))
    (hes : lineEntries ((pySplit crlf raw).dropLast) = some es)
    (hempty : lastVal es statusKey = some []) :
    st = ok200 ∧ ∀ p ∈ hs, p.1 ≠ statusKey := by
  obtain ⟨hst, hhs⟩ := parse_ok_components raw st hs es hok hes
  refine ⟨by rw [hst]; simp [statusOf, hempty], ?_⟩
  intro p hp
  rw [hhs] at hp
  obtain ⟨n, hn, hpn⟩ := List.mem_map.mp hp
  subst hpn
  exact (mem_okNames es n hn).1

/-- Witness for C10 at a concrete empty-`Status` header. -/
theorem claim_C10_witness :
    bytes "200 OK" = ok200
    ∧ ∀ p ∈ ([] : List (ByteStr × ByteStr)), p.1 ≠ statusKey :=
  claim_C10_empty_status (bytes "Status:\r\n") (bytes "200 OK") [] [(statusKey, [])]
    rfl rfl rfl

/-! ## The scanner failure conditions (claim C4) -/

/-- `cleanPrefix prev reads k`: the next `k` reads of the scan exist, are all
non-empty, and the two-chunk search (window over the previous chunk and the
new chunk) finds nothing at each of those `k` steps.  `prev` is the chunk
preceding `reads` (the empty placeholder when the scan starts). -/
def cleanPrefix : ByteStr → List ByteStr → Nat → Bool
  | _, _, 0 => true
  | _, [], _ + 1 => false
  | prev, r :: rest, k + 1 =>
    !(r == []) && (findHeaderEndIn2Chunks prev r).isNone && cleanPrefix r rest k

/-- `sumLens` of the empty chunk list. -/
theorem sumLens_nil : sumLens [] = 0 := rfl

/-- `sumLens` of a one-chunk extension. -/
theorem sumLens_concat (l : List ByteStr) (a : ByteStr) :
    sumLens (l ++ [a]) = sumLens l + a.length := by
  simp [sumLens]

/-- `sumLens` of a cons. -/
theorem sumLens_cons (a : ByteStr) (l : List ByteStr) :
    sumLens (a :: l) = a.length + sumLens l := by
  simp [sumLens]

/-- The scan loop raises the too-large error exactly when, with no boundary
found at any earlier step, the bytes accumulated by some step exceed the
maximum header size. -/
theorem scanGo_tooLarge_iff (reads : List ByteStr) : ∀ chunks : List ByteStr,
    scanGo chunks reads = .error .tooLarge ↔
      ∃ k, cleanPrefix (chunks.getLastD []) reads k = true
        ∧ sumLens chunks + sumLens (reads.take k) > defaultMaxHeaderSize := by
  induction reads with
  | nil =>
    intro chunks
    by_cases h : sumLens chunks > defaultMaxHeaderSize
    · exact iff_of_true (by simp [scanGo, h]) ⟨0, rfl, by simpa [sumLens_nil] using h⟩
    · refine iff_of_false (by simp [scanGo, h]) ?_
      rintro ⟨k, hk, hsum⟩
      cases k with
      | zero => simp [sumLens_nil] at hsum; omega
      | succ k => simp [cleanPrefix] at hk
  | cons r rest ih =>
    intro chunks
    by_cases h1 : sumLens chunks > defaultMaxHeaderSize
    · exact iff_of_true (by simp [scanGo, h1]) ⟨0, rfl, by simpa [sumLens_nil] using h1⟩
    · by_cases h2 : r = []
      · refine iff_of_false (by simp [scanGo, h1, h2]) ?_
        rintro ⟨k, hk, hsum⟩
        cases k with
        | zero => simp [sumLens_nil] at hsum; omega
        | succ k => simp [cleanPrefix, h2] at hk
      · cases hf : findHeaderEndIn2Chunks (chunks.getLastD []) r with
        | some bi =>
          obtain ⟨b, i⟩ := bi
          have hfq : findHeaderEndIn2Chunks (chunks.getLast?.getD []) r = some (b, i) := by
            rw [← List.getLastD_eq_getLast?]; exact hf
          refine iff_of_false (by simp [scanGo, h1, h2, hfq]) ?_
          rintro ⟨k, hk, hsum⟩
          cases k with
          | zero => simp [sumLens_nil] at hsum; omega
          | succ k => simp [cleanPrefix, hfq] at hk
        | none =>
          have hfq : findHeaderEndIn2Chunks (chunks.getLast?.getD []) r = none := by
            rw [← List.getLastD_eq_getLast?]; exact hf
          have hstep : scanGo chunks (r :: rest) = scanGo (chunks ++ [r]) rest := by
            simp [scanGo, h1, h2, hfq]
          rw [hstep, ih]
          constructor
          · rintro ⟨k, hk, hsum⟩
            rw [List.getLastD_concat] at hk
            rw [sumLens_concat] at hsum
            refine ⟨k + 1, ?_, ?_⟩
            · have hb : (r == ([] : ByteStr)) = false := beq_false_of_ne h2
              simp [cleanPrefix, hb, hfq, hk]
            · rw [List.take_succ_cons, sumLens_cons]
              omega
          · rintro ⟨k, hk, hsum⟩
            cases k with
            | zero => simp [sumLens_nil] at hsum; omega
            | succ k =>
              simp only [cleanPrefix, Bool.and_eq_true] at hk
              obtain ⟨⟨-, -⟩, hk⟩ := hk
              refine ⟨k, ?_, ?_⟩
              · rw [List.getLastD_concat]
                exact hk
              · rw [List.take_succ_cons, sumLens_cons] at hsum
                rw [sumLens_concat]
                omega

/-- The scan loop raises the boundary-not-found error exactly when, with no
boundary found at any earlier step and the accumulated bytes within the
maximum, a read returns zero bytes (or the stream is exhausted). -/
theorem scanGo_notFound_iff (reads : List ByteStr) : ∀ chunks : List ByteStr,
    scanGo chunks reads = .error .notFound ↔
      ∃ k, cleanPrefix (chunks.getLastD []) reads k = true
        ∧ sumLens chunks + sumLens (reads.take k) ≤ defaultMaxHeaderSize
        ∧ reads.getD k [] = [] := by
  induction reads with
  | nil =>
    intro chunks
    by_cases h : sumLens chunks > defaultMaxHeaderSize
    · refine iff_of_false (by simp [scanGo, h]) ?_
      rintro ⟨k, hk, hsum, hget⟩
      have hle : sumLens chunks ≤ defaultMaxHeaderSize :=
        le_trans (Nat.le_add_right _ _) hsum
      omega
    · refine iff_of_true (by simp [scanGo, h]) ⟨0, rfl, ?_, rfl⟩
      simpa [sumLens_nil] using Nat.le_of_not_lt h
  | cons r rest ih =>
    intro chunks
    by_cases h1 : sumLens chunks > defaultMaxHeaderSize
    · refine iff_of_false (by simp [scanGo, h1]) ?_
      rintro ⟨k, hk, hsum, hget⟩
      have hle : sumLens chunks ≤ defaultMaxHeaderSize :=
        le_trans (Nat.le_add_right _ _) hsum
      omega
    · by_cases h2 : r = []
      · refine iff_of_true (by simp [scanGo, h1, h2]) ⟨0, rfl, ?_, ?_⟩
        · simpa [sumLens_nil] using Nat.le_of_not_lt h1
        · rw [List.getD_cons_zero]
          exact h2
      · cases hf : findHeaderEndIn2Chunks (chunks.getLastD []) r with
        | some bi =>
          obtain ⟨b, i⟩ := bi
          have hfq : findHeaderEndIn2Chunks (chunks.getLast?.getD []) r = some (b, i) := by
            rw [← List.getLastD_eq_getLast?]; exact hf
          refine iff_of_false (by simp [scanGo, h1, h2, hfq]) ?_
          rintro ⟨k, hk, hsum, hget⟩
          cases k with
          | zero =>
            rw [List.getD_cons_zero] at hget
            exact h2 hget
          | succ k =>
            simp only [cleanPrefix, Bool.and_eq_true] at hk
            obtain ⟨⟨-, hnone⟩, -⟩ := hk
            rw [hf] at hnone
            simp at hnone
        | none =>
          have hfq : findHeaderEndIn2Chunks (chunks.getLast?.getD []) r = none := by
            rw [← List.getLastD_eq_getLast?]; exact hf
          have hstep : scanGo chunks (r :: rest) = scanGo (chunks ++ [r]) rest := by
            simp [scanGo, h1, h2, hfq]
          rw [hstep, ih]
          constructor
          · rintro ⟨k, hk, hsum, hget⟩
            rw [List.getLastD_concat] at hk
            rw [sumLens_concat] at hsum
            refine ⟨k + 1, ?_, ?_, ?_⟩
            · have hb : (r == ([] : ByteStr)) = false := beq_false_of_ne h2
              simp [cleanPrefix, hb, hfq, hk]
            · rw [List.take_succ_cons, sumLens_cons]
              omega
            · rw [List.getD_cons_succ]
              exact hget
          · rintro ⟨k, hk, hsum, hget⟩
            cases k with
            | zero =>
              rw [List.getD_cons_zero] at hget
              exact absurd hget h2
            | succ k =>
              simp only [cleanPrefix, Bool.and_eq_true] at hk
              obtain ⟨⟨-, -⟩, hk⟩ := hk
              refine ⟨k, ?_, ?_, ?_⟩
              · rw [List.getLastD_concat]
                exact hk
              · rw [List.take_succ_cons, sumLens_cons] at hsum
                rw [sumLens_concat]
                omega
              · rw [List.getD_cons_succ] at hget
                exact hget

/-- When the scan loop succeeds, the boundary it reports was located by the
two-chunk search on the last two accumulated chunks. -/
theorem scanGo_ok_located (reads : List ByteStr) : ∀ chunks : List ByteStr,
    ∀ cs b i rest', scanGo chunks reads = .ok (cs, b, i, rest') →
      findHeaderEndIn2Chunks (cs.dropLast.getLastD []) (cs.getLastD []) = some (b, i) := by
  induction reads with
  | nil =>
    intro chunks cs b i rest' h
    by_cases hc : sumLens chunks > defaultMaxHeaderSize
    · rw [show scanGo chunks [] = .error .tooLarge by simp [scanGo, hc]] at h
      exact Except.noConfusion h
    · rw [show scanGo chunks [] = .error .notFound by simp [scanGo, hc]] at h
      exact Except.noConfusion h
  | cons r rest ih =>
    intro chunks cs b i rest' h
    by_cases h1 : sumLens chunks > defaultMaxHeaderSize
    · rw [show scanGo chunks (r :: rest) = .error .tooLarge by simp [scanGo, h1]] at h
      exact Except.noConfusion h
    · by_cases h2 : r = []
      · rw [show scanGo chunks (r :: rest) = .error .notFound by
          simp [scanGo, h1, h2]] at h
        exact Except.noConfusion h
      · cases hf : findHeaderEndIn2Chunks (chunks.getLastD []) r with
        | some bi =>
          obtain ⟨b', i'⟩ := bi
          have hfq : findHeaderEndIn2Chunks (chunks.getLast?.getD []) r = some (b', i') := by
            rw [← List.getLastD_eq_getLast?]; exact hf
          rw [show scanGo chunks (r :: rest) = .ok (chunks ++ [r], b', i', rest) by
            simp [scanGo, h1, h2, hfq]] at h
          injection h with hpair
          injection hpair with hcs hrest1
          injection hrest1 with hb hrest2
          injection hrest2 with hi hrest3
          subst hcs
          subst hb
          subst hi
          rw [List.dropLast_concat, List.getLastD_concat]
          exact hf
        | none =>
          have hfq : findHeaderEndIn2Chunks (chunks.getLast?.getD []) r = none := by
            rw [← List.getLastD_eq_getLast?]; exact hf
          rw [show scanGo chunks (r :: rest) = scanGo (chunks ++ [r]) rest by
            simp [scanGo, h1, h2, hfq]] at h
          exact ih (chunks ++ [r]) cs b i rest' h

/-- Claim C4: the scan fails with the too-large error exactly when the bytes
accumulated from stdout exceed the maximum header size with no boundary
found at any step so far; it fails with the boundary-not-found error exactly
when a read returns zero bytes (or the stream ends) with no boundary found
and the total within the maximum; any success carries a boundary located by
the two-chunk search on the last two chunks; and no outcome other than these
two failures or a located boundary is possible. -/
theorem claim_C4_scan_outcomes (reads : List ByteStr) :
    (scanChunks reads = .error .tooLarge ↔
      ∃ k, cleanPrefix [] reads k = true
        ∧ sumLens (reads.take k) > defaultMaxHeaderSize)
    ∧ (scanChunks reads = .error .notFound ↔
      ∃ k, cleanPrefix [] reads k = true
        ∧ sumLens (reads.take k) ≤ defaultMaxHeaderSize
        ∧ reads.getD k [] = [])
    ∧ (∀ cs b i rest, scanChunks reads = .ok (cs, b, i, rest) →
        findHeaderEndIn2Chunks (cs.dropLast.getLastD []) (cs.getLastD []) = some (b, i))
    ∧ (scanChunks reads = .error .tooLarge ∨ scanChunks reads = .error .notFound
        ∨ ∃ out, scanChunks reads = .ok out) := by
  have hsl : sumLens [[]] = 0 := rfl
  refine ⟨?_, ?_, ?_, ?_⟩
  · constructor
    · intro h
      obtain ⟨k, hk, hs⟩ := (scanGo_tooLarge_iff reads [[]]).mp h
      rw [hsl, Nat.zero_add] at hs
      exact ⟨k, hk, hs⟩
    · rintro ⟨k, hk, hs⟩
      refine (scanGo_tooLarge_iff reads [[]]).mpr ⟨k, hk, ?_⟩
      rw [hsl, Nat.zero_add]
      exact hs
  · constructor
    · intro h
      obtain ⟨k, hk, hs, hg⟩ := (scanGo_notFound_iff reads [[]]).mp h
      rw [hsl, Nat.zero_add] at hs
      exact ⟨k, hk, hs, hg⟩
    · rintro ⟨k, hk, hs, hg⟩
      refine (scanGo_notFound_iff reads [[]]).mpr ⟨k, hk, ?_, hg⟩
      rw [hsl, Nat.zero_add]
      exact hs
  · intro cs b i rest h
    exact scanGo_ok_located reads [[]] cs b i rest h
  · cases h : scanChunks reads with
    | error e =>
      cases e with
      | tooLarge => exact Or.inl rfl
      | notFound => exact Or.inr (Or.inl rfl)
    | ok out => exact Or.inr (Or.inr ⟨out, rfl⟩)

/-- Witness for C4 at a concrete successful scan. -/
theorem claim_C4_witness :
    findHeaderEndIn2Chunks (([[], bytes "x\r\n\r\ny"] : List ByteStr).dropLast.getLastD [])
      (([[], bytes "x\r\n\r\ny"] : List ByteStr).getLastD []) = some (false, 1) :=
  (claim_C4_scan_outcomes [bytes "x\r\n\r\ny"]).2.2.1 [[], bytes "x\r\n\r\ny"] false 1 [] rfl
